import Mathlib

/-!
Shallow embedding of the FinTrack transaction-reconstruction engine
(`src/FinTrack/parser/file_handling.py`, class `NorisbankPDFParser`).

Modelling conventions:
* pdfminer coordinates and currency values are modelled as rationals (`ℚ`);
  the statement amounts handled by the program are exact 2-decimal values, so
  binary floating-point representation error is immaterial to the claims.
* Python regular-expression searches (`re.search`, `pandas.Series.str.contains`)
  are modelled by executable scanners over `List Char` that implement the
  leftmost-match backtracking semantics of the three concrete patterns
  `DATE_PATTERN`, `AMOUNT_PATTERN`, `AMOUNT_PATTERN_CREDIT/DEBIT`.
* `print`-based warnings are modelled as a returned list of `Warning` values.
* operations that raise Python exceptions (`min`/`max` over an empty sequence,
  `KeyError` on an empty transaction frame, `to_datetime` format failure)
  are modelled with `Except ExtractErr`.
-/

namespace FinTrack

/-- Python `\s` (ASCII whitespace as it occurs in the statement texts). -/
def isWsChar (c : Char) : Bool :=
  c = ' ' || c = '\t' || c = '\n' || c = '\r' || c = '\x0b' || c = '\x0c'

/-- Python `\d` restricted to ASCII digits. -/
def isDigitCh (c : Char) : Bool :=
  '0' ≤ c && c ≤ '9'

/-- `listStarts l p` : `l` begins with `p` (literal-prefix step of a regex match). -/
def listStarts : List Char → List Char → Bool
  | _, [] => true
  | [], _ :: _ => false
  | h :: hs, p :: ps => h = p && listStarts hs ps

/-- `hasSub hay pat` : `pat` occurs contiguously somewhere in `hay`
(Python `pat in hay` / `str.contains` on a literal pattern). -/
def hasSub : List Char → List Char → Bool
  | [], pat => listStarts [] pat
  | h :: t, pat => listStarts (h :: t) pat || hasSub t pat

/-- Lower-casing as used by `str.lower()` / `case=False` (ASCII letters). -/
def lowerList (cs : List Char) : List Char :=
  cs.map Char.toLower

/-- One position of `DATE_PATTERN = \d{2}\.\d{2}\.\s*2024`:
two digits, a dot, two digits, a dot, optional whitespace, literal `2024`. -/
def dateAt : List Char → Bool
  | d1 :: d2 :: p1 :: d3 :: d4 :: p2 :: rest =>
    isDigitCh d1 && isDigitCh d2 && p1 = '.' &&
    isDigitCh d3 && isDigitCh d4 && p2 = '.' &&
    listStarts (rest.dropWhile isWsChar) ['2', '0', '2', '4']
  | _ => false

/-- `re.search(DATE_PATTERN, ·)` over a character list: some start position matches. -/
def containsDateL : List Char → Bool
  | [] => false
  | c :: rest => dateAt (c :: rest) || containsDateL rest

/-- `df['text'].str.contains(DATE_PATTERN)` for one text. -/
def containsDate (s : String) : Bool :=
  containsDateL s.toList

/-- Number of leading ASCII digits. -/
def leadDigits (cs : List Char) : Nat :=
  (cs.takeWhile isDigitCh).length

/-- Backtracking matcher for the numeric part of `AMOUNT_PATTERN`,
`((?:\d{1,3}\.)*\d{1,3},\d{2})`, at the start of the input; returns the number
of characters consumed by the leftmost-longest (regex-order) match.  The
recursion is fuelled by the input length: every thousands group consumes at
least two characters. -/
def amountNumLenF : Nat → List Char → Option Nat
  | 0, _ => none
  | fuel + 1, cs =>
    let r := leadDigits cs
    if 1 ≤ r ∧ r ≤ 3 then
      match cs.drop r with
      | '.' :: rest => (amountNumLenF fuel rest).map (fun n => r + 1 + n)
      | ',' :: a :: b :: _ => if isDigitCh a && isDigitCh b then some (r + 3) else none
      | _ => none
    else
      none

/-- Length of the `AMOUNT_PATTERN` numeric group matched at the head of `cs`. -/
def amountNumLen (cs : List Char) : Option Nat :=
  amountNumLenF cs.length cs

/-- `re.search(AMOUNT_PATTERN, ·)`: the first `+`/`-` that is followed
(after optional whitespace) by a well-formed amount; returns the sign
character and the characters of the numeric group (groups 1 and 2). -/
def amountSearch : List Char → Option (Char × List Char)
  | [] => none
  | c :: rest =>
    if c = '+' || c = '-' then
      let tailWs := rest.dropWhile isWsChar
      match amountNumLen tailWs with
      | some n => some (c, tailWs.take n)
      | none => amountSearch rest
    else
      amountSearch rest

/-- `str.contains(AMOUNT_PATTERN_CREDIT)` / `..._DEBIT`: some occurrence of the
given sign character followed (after optional whitespace) by an amount. -/
def hasAmountWithSign (sign : Char) : List Char → Bool
  | [] => false
  | c :: rest =>
    (c = sign && (amountNumLen (rest.dropWhile isWsChar)).isSome) ||
    hasAmountWithSign sign rest

/-- Value of a digit string (most significant first). -/
def digitsToNat (cs : List Char) : Nat :=
  cs.foldl (fun a c => a * 10 + (c.toNat - 48)) 0

/-- `float(amount.replace('.', '').replace(',', '.'))` on a matched numeric
group: drop the thousands dots, read the integer part and the two decimal
digits after the comma. -/
def parseAmountNum (num : List Char) : ℚ :=
  let ds := num.filter (fun c => c ≠ '.')
  let intPart := ds.takeWhile isDigitCh
  let fracPart := (ds.dropWhile isDigitCh).drop 1
  (digitsToNat intPart : ℚ) + (digitsToNat fracPart : ℚ) / 100

/-- Round-half-to-even on `ℚ` (the rounding applied by Python's `round` and
`numpy.round` to the exact values arising here). -/
def roundHE (q : ℚ) : ℤ :=
  let f := ⌊q⌋
  let r := q - (f : ℚ)
  if r < 1 / 2 then f
  else if 1 / 2 < r then f + 1
  else if f % 2 = 0 then f else f + 1

/-- `round(x, 2)`. -/
def round2 (q : ℚ) : ℚ :=
  (roundHE (q * 100) : ℚ) / 100

/-- A positioned text box as produced by pdfminer (`extract_data`, lines 186-197):
page number, bounding box, whitespace-trimmed text. -/
structure Fragment where
  page : Nat
  x0 : ℚ
  y0 : ℚ
  x1 : ℚ
  y1 : ℚ
  text : String
deriving DecidableEq, Repr

/-- One entry of the `categories` configuration dictionary: display name and
keyword list.  The list order is the dictionary iteration order. -/
structure Rule where
  name : String
  keywords : List String
deriving DecidableEq, Repr

/-- One keyword of the rule occurs in the lower-cased text
(`any(keyword in text_lower for keyword in category['keywords'])`). -/
def ruleMatches (textLower : List Char) (r : Rule) : Bool :=
  r.keywords.any (fun k => hasSub textLower k.toList)

/-- `categorize_transaction` (lines 85-101): first rule in configured order
with a matching keyword wins; fallback category is `Personal`. -/
def categorizeGo : List Rule → List Char → String
  | [], _ => "Personal"
  | r :: rs, textLower => if ruleMatches textLower r then r.name else categorizeGo rs textLower

/-- `categorize_transaction(text)`. -/
def categorize (cats : List Rule) (text : String) : String :=
  categorizeGo cats (lowerList text.toList)

/-- Sign application in `extract_balance` (lines 140-143). -/
def parseSignedAmount (sign : Char) (num : List Char) : ℚ :=
  if sign = '-' then -(parseAmountNum num) else parseAmountNum num

/-- Body of the loop over `EUR` rows in `extract_balance` (lines 119-148):
texts with `y0` within ±20 classify the anchor via `Alter Saldo` / `Neuer
Saldo` (case-insensitive, whole frame — the code has no page filter); the
first fragment sharing both `y0` and `y1` with the anchor and containing an
amount supplies the value; `start` wins over `end` when both phrases occur. -/
def balanceStep (frags : List Fragment) (acc : Option ℚ × Option ℚ) (eur : Fragment) :
    Option ℚ × Option ℚ :=
  let nearby := frags.filter (fun f =>
    decide (eur.y0 - 20 ≤ f.y0) && decide (f.y0 ≤ eur.y0 + 20))
  let isStart := nearby.any (fun f => hasSub (lowerList f.text.toList) "alter saldo".toList)
  let isEnd := nearby.any (fun f => hasSub (lowerList f.text.toList) "neuer saldo".toList)
  let pot := frags.filter (fun f =>
    decide (f.y0 = eur.y0) && decide (f.y1 = eur.y1) && (amountSearch f.text.toList).isSome)
  match pot.head? with
  | none => acc
  | some af =>
    match amountSearch af.text.toList with
    | none => acc
    | some (sign, num) =>
      let b := parseSignedAmount sign num
      if isStart then (some b, acc.2)
      else if isEnd then (acc.1, some b)
      else acc

/-- `extract_balance` (lines 103-150): fold `balanceStep` over the fragments
whose text is exactly `EUR`, in frame order; returns (start, end). -/
def extractBalance (frags : List Fragment) : Option ℚ × Option ℚ :=
  (frags.filter (fun f => decide (f.text = "EUR"))).foldl (balanceStep frags) (none, none)

/-- Equality of rationals decided on the canonical numerator/denominator
form (the equality grouping used by `value_counts()` on coordinates). -/
def qeq (a b : ℚ) : Bool :=
  a.num == b.num && a.den == b.den

/-- `qeq` decides equality. -/
theorem qeq_iff (a b : ℚ) : qeq a b = true ↔ a = b := by
  unfold qeq
  rw [Bool.and_eq_true, beq_iff_eq, beq_iff_eq]
  constructor
  · intro h
    exact Rat.ext h.1 h.2
  · rintro rfl
    exact ⟨rfl, rfl⟩

/-- Occurrence count of a value (one bucket of `value_counts()`). -/
def countOcc (x : ℚ) (xs : List ℚ) : Nat :=
  (xs.filter (fun y => qeq y x)).length

/-- Distinct values in order of first appearance. -/
def dedupFA (xs : List ℚ) : List ℚ :=
  xs.foldl (fun acc x => if acc.any (fun y => qeq y x) then acc else acc ++ [x]) []

/-- Keep the candidate with the larger occurrence count (ties keep the
earlier one). -/
def pickStep (xs : List ℚ) (b v : ℚ) : ℚ :=
  if countOcc b xs < countOcc v xs then v else b

/-- First candidate of maximal occurrence count (ties keep the earlier one). -/
def pickBest (xs : List ℚ) : List ℚ → Option ℚ
  | [] => none
  | c :: cs => some (cs.foldl (pickStep xs) c)

/-- `value_counts().nlargest(2).index`: the (at most two) most frequent values,
most frequent first; count ties keep first-appearance order. -/
def top2Vals (xs : List ℚ) : List ℚ :=
  match pickBest xs (dedupFA xs) with
  | none => []
  | some v1 =>
    match pickBest xs ((dedupFA xs).filter (fun v => !qeq v v1)) with
    | none => [v1]
    | some v2 => [v1, v2]

/-- Python `max` over a nonempty sequence, written head/tail. -/
def listMax (a : ℚ) (l : List ℚ) : ℚ :=
  l.foldl max a

/-- Python `min` over a nonempty sequence, written head/tail. -/
def listMin (a : ℚ) (l : List ℚ) : ℚ :=
  l.foldl min a

/-- The inferred column x-coordinates (`amount_x1_credit`, `amount_x1_debit`,
`booking_x0`, `valuta_x0`, lines 214-219). -/
structure ColumnLayout where
  bookingDateX : ℚ
  valutaDateX : ℚ
  creditRightEdgeX : ℚ
  debitRightEdgeX : ℚ
deriving DecidableEq, Repr

/-- Failure modes of `extract_data`, each standing for a concrete Python
exception: `min`/`max` over an empty `nlargest` index (ValueError), a booking
date rejected by `to_datetime(format='%d.%m.%Y')`, and the `KeyError` raised
on an empty transaction frame. -/
inductive ExtractErr where
  | noCreditColumn
  | noDebitColumn
  | noDateColumn
  | dateFormat (text : List Char)
  | noTransactions
deriving DecidableEq, Repr

/-- Non-fatal conditions reported via `print` (lines 205, 289). -/
inductive Warning where
  | missingStartBalance
  | reconcileMismatch
deriving DecidableEq, Repr

/-- `x0` of every fragment matching `DATE_PATTERN` (line 209). -/
def dateX0List (frags : List Fragment) : List ℚ :=
  (frags.filter (fun f => containsDate f.text)).map (·.x0)

/-- `x1` of every fragment matching `AMOUNT_PATTERN_CREDIT` (line 212). -/
def creditX1List (frags : List Fragment) : List ℚ :=
  (frags.filter (fun f => hasAmountWithSign '+' f.text.toList)).map (·.x1)

/-- `x1` of every fragment matching `AMOUNT_PATTERN_DEBIT` (line 213). -/
def debitX1List (frags : List Fragment) : List ℚ :=
  (frags.filter (fun f => hasAmountWithSign '-' f.text.toList)).map (·.x1)

/-- Lines 211-219: `amount_x1_credit = round(max(nlargest2), 2)`, likewise for
debit; `booking_x0 = min(nlargest2)`, `valuta_x0 = max(nlargest2)` over date
`x0` values.  An empty candidate list makes the Python `max`/`min` raise. -/
def locateColumns (frags : List Fragment) : Except ExtractErr ColumnLayout :=
  match top2Vals (creditX1List frags) with
  | [] => .error .noCreditColumn
  | c :: cs =>
    match top2Vals (debitX1List frags) with
    | [] => .error .noDebitColumn
    | d :: ds =>
      match top2Vals (dateX0List frags) with
      | [] => .error .noDateColumn
      | b :: bs =>
        .ok { bookingDateX := listMin b bs
              valutaDateX := listMax b bs
              creditRightEdgeX := round2 (listMax c cs)
              debitRightEdgeX := round2 (listMax d ds) }

/-- A transaction dict as built in the row loop (lines 238-244):
cleaned booking-date text, optional purpose, debit, credit. -/
structure RawTxn where
  booking : List Char
  purpose : Option String
  debit : Option ℚ
  credit : Option ℚ
deriving DecidableEq, Repr

/-- A parsed calendar date. -/
structure DateYMD where
  year : Nat
  month : Nat
  day : Nat
deriving DecidableEq, Repr

/-- A row of the returned transaction frame (after line 292 the
`booking_date` column is dropped). -/
structure Txn where
  purpose : Option String
  debit : Option ℚ
  credit : Option ℚ
  currency : String
  date : DateYMD
  year : Nat
  month : Nat
  quarter : Nat
  amount : ℚ
  balance : ℚ
deriving DecidableEq, Repr

/-- Strip leading and trailing whitespace (Python `str.strip()`). -/
def stripWs (cs : List Char) : List Char :=
  ((cs.dropWhile isWsChar).reverse.dropWhile isWsChar).reverse

/-- `date_row['text'].replace('\n', '').strip()` (line 239). -/
def cleanBooking (s : String) : List Char :=
  stripWs (s.toList.filter (fun c => c ≠ '\n'))

/-- Greedily take up to `n` leading digits; returns (digits, rest). -/
def takeDigitsUpTo : Nat → List Char → List Char × List Char
  | 0, cs => ([], cs)
  | _ + 1, [] => ([], [])
  | n + 1, c :: rest =>
    if isDigitCh c then
      let p := takeDigitsUpTo n rest
      (c :: p.1, p.2)
    else ([], c :: rest)

/-- Day count per month under the Gregorian rule, as validated by
`pandas.to_datetime`. -/
def daysInMonth (m y : Nat) : Nat :=
  if m = 2 then
    if y % 4 = 0 ∧ (y % 100 ≠ 0 ∨ y % 400 = 0) then 29 else 28
  else if m = 4 ∨ m = 6 ∨ m = 9 ∨ m = 11 then 30
  else 31

/-- `pd.to_datetime(text, format='%d.%m.%Y')` (line 271): one-or-two-digit
day, dot, one-or-two-digit month, dot, four-digit year, matching the whole
string, with calendar validation; `none` models the raised parse error. -/
def parseDate (cs : List Char) : Option DateYMD :=
  let pd := takeDigitsUpTo 2 cs
  if pd.1 = [] then none
  else
    match pd.2 with
    | '.' :: r2 =>
      let pm := takeDigitsUpTo 2 r2
      if pm.1 = [] then none
      else
        match pm.2 with
        | '.' :: r4 =>
          let py := takeDigitsUpTo 4 r4
          if py.1.length = 4 ∧ py.2 = [] then
            let dv := digitsToNat pd.1
            let mv := digitsToNat pm.1
            let yv := digitsToNat py.1
            if 1 ≤ mv ∧ mv ≤ 12 ∧ 1 ≤ dv ∧ dv ≤ daysInMonth mv yv then
              some ⟨yv, mv, dv⟩
            else none
          else none
        | _ => none
    | _ => none

/-- First-appearance deduplication, used for `df['page'].unique()`. -/
def pagesOf (frags : List Fragment) : List Nat :=
  (frags.map (·.page)).foldl (fun acc x => if x ∈ acc then acc else acc ++ [x]) []

/-- `page_df`: the fragments of one page, in frame order (line 226). -/
def pageFrags (frags : List Fragment) (p : Nat) : List Fragment :=
  frags.filter (fun f => decide (f.page = p))

/-- `booking_dates` (lines 229-232): fragments of the page at `booking_x0`
matching the date pattern — the row anchors. -/
def rowAnchors (pageDf : List Fragment) (bookingX : ℚ) : List Fragment :=
  pageDf.filter (fun f => decide (f.x0 = bookingX) && containsDate f.text)

/-- `same_y1_entries` (line 235): every fragment of the page whose `y1`
equals the anchor's `y1` (the anchor itself satisfies the filter too). -/
def rowEntries (pageDf : List Fragment) (anchor : Fragment) : List Fragment :=
  pageDf.filter (fun f => decide (f.y1 = anchor.y1))

/-- The fresh transaction dict of lines 238-244. -/
def initTxn (anchor : Fragment) : RawTxn :=
  { booking := cleanBooking anchor.text, purpose := none, debit := none, credit := none }

/-- Body of the per-row loop (lines 247-263): skip the valuta column; an
amount-shaped text whose right edge satisfies the one-sided tolerance test
against either amount column sets `credit` (sign `+`) or `debit` (sign `-`,
stored negative); every other fragment overwrites `purpose` with its
category. -/
def processEntry (cats : List Rule) (L : ColumnLayout) (t : RawTxn) (f : Fragment) : RawTxn :=
  if f.x0 = L.valutaDateX then t
  else
    match amountSearch f.text.toList with
    | some (sign, num) =>
      if f.x1 - L.creditRightEdgeX < 10 ∨ f.x1 - L.debitRightEdgeX < 10 then
        if sign = '+' then { t with credit := some (parseAmountNum num) }
        else if sign = '-' then { t with debit := some (-(parseAmountNum num)) }
        else t
      else { t with purpose := some (categorize cats f.text) }
    | none => { t with purpose := some (categorize cats f.text) }

/-- One transaction per row anchor: fold the row entries, in frame order,
over the fresh dict (lines 238-263). -/
def buildTxn (cats : List Rule) (L : ColumnLayout) (pageDf : List Fragment)
    (anchor : Fragment) : RawTxn :=
  (rowEntries pageDf anchor).foldl (processEntry cats L) (initTxn anchor)

/-- The page/anchor double loop of lines 225-265, in iteration order. -/
def reconstruct (frags : List Fragment) (L : ColumnLayout) (cats : List Rule) : List RawTxn :=
  (pagesOf frags).flatMap (fun p =>
    (rowAnchors (pageFrags frags p) L.bookingDateX).map
      (buildTxn cats L (pageFrags frags p)))

/-- Lines 271-277 for one row: parse the booking date (a failure is fatal)
and derive `year`, `month`, `quarter` and
`amount = round(credit + debit, 2)` with absent values read as `0`.
`balance` is filled in later. -/
def enrich (r : RawTxn) : Except ExtractErr Txn :=
  match parseDate r.booking with
  | none => .error (.dateFormat r.booking)
  | some d =>
    .ok { purpose := r.purpose
          debit := r.debit
          credit := r.credit
          currency := "EUR"
          date := d
          year := d.year
          month := d.month
          quarter := (d.month - 1) / 3 + 1
          amount := round2 (r.credit.getD 0 + r.debit.getD 0)
          balance := 0 }

/-- Columnwise application of `enrich`, stopping at the first failure
(`to_datetime` raises on the first bad value). -/
def enrichAll : List RawTxn → Except ExtractErr (List Txn)
  | [] => .ok []
  | r :: rs =>
    match enrich r with
    | .error e => .error e
    | .ok t =>
      match enrichAll rs with
      | .error e => .error e
      | .ok ts => .ok (t :: ts)

/-- Numeric sort key of a date (lexicographic year, month, day). -/
def dateKey (d : DateYMD) : Nat :=
  d.year * 10000 + d.month * 100 + d.day

/-- Stable insertion keeping earlier-encountered transactions first among
equal dates. -/
def insertTxn (t : Txn) : List Txn → List Txn
  | [] => [t]
  | u :: us =>
    if dateKey u.date < dateKey t.date then u :: insertTxn t us
    else t :: u :: us

/-- `df_transactions.sort_values('date')` (line 280), modelled as a stable
ascending sort.  The Python call uses pandas' default `kind='quicksort'`,
whose order among equal dates is not documented; the model fixes the stable
order. -/
def sortByDate (l : List Txn) : List Txn :=
  l.foldr insertTxn []

/-- Line 283: `balance = round(start_balance + amount.cumsum(), 2)`.  `acc`
is the cumulative sum of the amounts already passed. -/
def withBalances (b0 : ℚ) (acc : ℚ) : List Txn → List Txn
  | [] => []
  | t :: ts =>
    { t with balance := round2 (b0 + (acc + t.amount)) } ::
      withBalances b0 (acc + t.amount) ts

/-- Lines 208-294 after the balances are located: locate the columns,
reconstruct and date-parse the rows, sort, compute running balances, and
compare the final balance against a located end balance with the strict
`> 5.00` tolerance (line 288). -/
def pipelineFrom (b0 : ℚ) (eb : Option ℚ) (frags : List Fragment) (cats : List Rule) :
    Except ExtractErr (List Txn × List Warning) :=
  match locateColumns frags with
  | .error e => .error e
  | .ok L =>
    match reconstruct frags L cats with
    | [] => .error .noTransactions
    | r :: rs =>
      match enrichAll (r :: rs) with
      | .error e => .error e
      | .ok dated =>
        match (withBalances b0 0 (sortByDate dated)).getLast? with
        | none => .error .noTransactions
        | some t =>
          .ok (withBalances b0 0 (sortByDate dated),
            match eb with
            | none => []
            | some e => if 5 < |t.balance - e| then [Warning.reconcileMismatch] else [])

/-- `extract_data` (lines 152-294) from the fragment list on: extract the
balances, fall back to a start balance of `0` with a warning (lines 204-206),
then run the reconstruction pipeline. -/
def extractData (frags : List Fragment) (cats : List Rule) :
    Except ExtractErr (List Txn × List Warning) :=
  let sb := (extractBalance frags).1
  (pipelineFrom (sb.getD 0) (extractBalance frags).2 frags cats).map
    (fun p => (p.1, (if sb.isNone then [Warning.missingStartBalance] else []) ++ p.2))

/-- A well-formed one-page statement: declared start balance 1000.00 and end
balance 1010.00, and two transaction rows (credit 10.00 on 01.02.2024, debit
5.00 on 02.02.2024), with value-date and purpose cells. -/
def sampleDoc : List Fragment :=
  [ ⟨1, 300, 700, 320, 710, "EUR"⟩
  , ⟨1, 100, 700, 160, 710, "Alter Saldo"⟩
  , ⟨1, 330, 700, 350, 710, "+ 1.000,00"⟩
  , ⟨1, 300, 650, 320, 660, "EUR"⟩
  , ⟨1, 100, 650, 160, 660, "Neuer Saldo"⟩
  , ⟨1, 330, 650, 350, 660, "+ 1.010,00"⟩
  , ⟨1, 50, 590, 80, 600, "01.02.2024"⟩
  , ⟨1, 90, 590, 120, 600, "02.02.2024"⟩
  , ⟨1, 150, 590, 250, 600, "Amazon Marketplace"⟩
  , ⟨1, 370, 590, 400, 600, "+ 10,00"⟩
  , ⟨1, 50, 570, 80, 580, "02.02.2024"⟩
  , ⟨1, 90, 570, 120, 580, "03.02.2024"⟩
  , ⟨1, 150, 570, 250, 580, "REWE Markt"⟩
  , ⟨1, 450, 570, 480, 580, "- 5,00"⟩ ]

/-- Category configuration used with `sampleDoc`. -/
def sampleCats : List Rule :=
  [⟨"Shopping", ["amazon"]⟩]

/-- The transactions that `extract_data` computes on `sampleDoc`. -/
def sampleTxns : List Txn :=
  match extractData sampleDoc sampleCats with
  | .ok p => p.1
  | .error _ => []

/-- A statement whose single row carries an amount cell (`- 7,77`) whose
right edge `x1 = 200` is more than 10 units away from both inferred amount
columns (400 and 480) — on the left side.  The stray cells below only feed
the column histograms. -/
def doc2 : List Fragment :=
  [ ⟨1, 50, 590, 80, 600, "01.02.2024"⟩
  , ⟨1, 90, 590, 120, 600, "02.02.2024"⟩
  , ⟨1, 150, 590, 200, 600, "- 7,77"⟩
  , ⟨1, 370, 500, 400, 510, "+ 1,00"⟩
  , ⟨1, 450, 460, 480, 470, "- 1,00"⟩
  , ⟨1, 450, 440, 480, 450, "- 1,00"⟩ ]

/-- A statement whose single transaction row consists of the date anchor
alone; the other fragments only feed the column histograms. -/
def doc3 : List Fragment :=
  [ ⟨1, 50, 590, 80, 600, "01.02.2024"⟩
  , ⟨1, 90, 700, 120, 710, "05.03.2024"⟩
  , ⟨1, 370, 500, 400, 510, "+ 1,00"⟩
  , ⟨1, 450, 460, 480, 470, "- 1,00"⟩ ]

/-- A category whose keyword matches the anchor's own date text. -/
def cats3 : List Rule :=
  [⟨"DateCat", ["01."]⟩]

/-- A fragment set with no date fragment at all, hence no row anchor. -/
def doc4 : List Fragment :=
  [⟨1, 100, 700, 200, 710, "Hello World"⟩]

/-- A fragment set whose most frequent credit right edge is `400.125`, a
coordinate that is not a 2-decimal value. -/
def doc9 : List Fragment :=
  [ ⟨1, 50, 590, 80, 600, "01.02.2024"⟩
  , ⟨1, 90, 590, 120, 600, "02.02.2024"⟩
  , ⟨1, 50, 570, 80, 580, "02.02.2024"⟩
  , ⟨1, 90, 570, 120, 580, "03.02.2024"⟩
  , ⟨1, 370, 500, 400.125, 510, "+ 1,00"⟩
  , ⟨1, 370, 480, 400.125, 490, "+ 1,00"⟩
  , ⟨1, 270, 460, 300, 470, "+ 2,00"⟩
  , ⟨1, 450, 440, 480, 450, "- 1,00"⟩
  , ⟨1, 450, 420, 480, 430, "- 1,00"⟩
  , ⟨1, 150, 400, 200, 410, "- 2,00"⟩ ]

/-- The first rule in order whose keywords match wins, independently of the
rules behind it. -/
theorem categorizeGo_append (lt : List Char) (r : Rule) (post : List Rule) :
    ∀ pre : List Rule, (∀ r' ∈ pre, ruleMatches lt r' = false) →
      ruleMatches lt r = true →
      categorizeGo (pre ++ r :: post) lt = r.name
  | [], _, hr => by simp [categorizeGo, hr]
  | p :: ps, hpre, hr => by
    have hp := hpre p (List.mem_cons_self p ps)
    simpa [categorizeGo, hp] using
      categorizeGo_append lt r post ps (fun r' h => hpre r' (List.mem_cons_of_mem _ h)) hr

/-- With no matching rule the default category is returned. -/
theorem categorizeGo_none (lt : List Char) :
    ∀ cats : List Rule, (∀ r ∈ cats, ruleMatches lt r = false) →
      categorizeGo cats lt = "Personal"
  | [], _ => rfl
  | p :: ps, h => by
    have hp := h p (List.mem_cons_self p ps)
    simpa [categorizeGo, hp] using
      categorizeGo_none lt ps (fun r hr => h r (List.mem_cons_of_mem _ hr))

/-- C6: the Categorizer returns the display name of the first configured rule
having a keyword that occurs in the lower-cased text, returns `Personal` when
no rule matches, and on rules `R1 := amazon`, `R2 := amaz` the text
`Amazon Marketplace` resolves to `R1` (first match wins). -/
theorem c6_first_match :
    (∀ (pre post : List Rule) (r : Rule) (text : String),
        (∀ r' ∈ pre, ruleMatches (lowerList text.toList) r' = false) →
        ruleMatches (lowerList text.toList) r = true →
        categorize (pre ++ r :: post) text = r.name) ∧
    (∀ (cats : List Rule) (text : String),
        (∀ r ∈ cats, ruleMatches (lowerList text.toList) r = false) →
        categorize cats text = "Personal") ∧
    categorize [⟨"R1", ["amazon"]⟩, ⟨"R2", ["amaz"]⟩] "Amazon Marketplace" = "R1" := by
  refine ⟨?_, ?_, by decide⟩
  · intro pre post r text hpre hr
    exact categorizeGo_append _ r post pre hpre hr
  · intro cats text h
    exact categorizeGo_none _ cats h

/-- C6 witness: the sample configuration (single rule `Shopping`, keyword
`amazon`) classifies `Amazon Marketplace` as `Shopping`. -/
theorem c6_first_match_witness :
    categorize sampleCats "Amazon Marketplace" = "Shopping" :=
  c6_first_match.1 [] [] ⟨"Shopping", ["amazon"]⟩ "Amazon Marketplace"
    (by intro r' h; cases h) (by decide)

/-- C2 (amended): the per-row amount assignment is one-sided.  A non-valuta
fragment whose text carries an amount is assigned as credit or debit exactly
when `x1 - creditRightEdgeX < 10` or `x1 - debitRightEdgeX < 10`; there is no
absolute-value comparison, so fragments arbitrarily far to the left of both
columns are still assigned, while fragments more than 10 units to the right of
both are treated as purpose text. -/
theorem c2_one_sided_tolerance :
    ∀ (cats : List Rule) (L : ColumnLayout) (t : RawTxn) (f : Fragment)
      (sign : Char) (num : List Char),
      f.x0 ≠ L.valutaDateX →
      amountSearch f.text.toList = some (sign, num) →
      ((f.x1 - L.creditRightEdgeX < 10 ∨ f.x1 - L.debitRightEdgeX < 10) →
        processEntry cats L t f =
          (if sign = '+' then { t with credit := some (parseAmountNum num) }
           else if sign = '-' then { t with debit := some (-(parseAmountNum num)) }
           else t)) ∧
      (¬ (f.x1 - L.creditRightEdgeX < 10 ∨ f.x1 - L.debitRightEdgeX < 10) →
        processEntry cats L t f = { t with purpose := some (categorize cats f.text) }) := by
  intro cats L t f sign num hx ha
  constructor
  · intro hcond
    unfold processEntry
    rw [if_neg hx, ha]
    simp [hcond]
  · intro hcond
    unfold processEntry
    rw [if_neg hx, ha]
    simp [hcond]

/-- C2 witness: in `doc2` the amount cell `- 7,77` (right edge 200) sits in a
row with valuta column 90 and amount columns 400/480; the one-sided test fires
(200 − 400 < 10) and the fragment is stored as the debit −7.77. -/
theorem c2_one_sided_tolerance_witness :
    processEntry [] ⟨50, 90, 400, 480⟩
        (initTxn ⟨1, 50, 590, 80, 600, "01.02.2024"⟩) ⟨1, 150, 590, 200, 600, "- 7,77"⟩ =
      { initTxn ⟨1, 50, 590, 80, 600, "01.02.2024"⟩ with debit := some (-(777 / 100)) } := by
  have h := (c2_one_sided_tolerance [] ⟨50, 90, 400, 480⟩
      (initTxn ⟨1, 50, 590, 80, 600, "01.02.2024"⟩) ⟨1, 150, 590, 200, 600, "- 7,77"⟩
      '-' "7,77".toList
      (by show (150 : ℚ) ≠ 90; norm_num)
      (by with_unfolding_all rfl)).1
    (Or.inl (by show (200 : ℚ) - 400 < 10; norm_num))
  exact h.trans (by with_unfolding_all rfl)

set_option maxRecDepth 200000 in
/-- C2 counterexample: in `doc2` the columns are located at 400 (credit) and
480 (debit); the amount cell with right edge 200 is farther than 10 units from
both (two-sided distance), yet the extracted transaction carries it as debit
−7.77 — refuting the claimed absolute-value tolerance test. -/
theorem c2_two_sided_refuted :
    locateColumns doc2 = .ok ⟨50, 90, 400, 480⟩ ∧
    ¬ (|(200 : ℚ) - 400| < 10) ∧
    ¬ (|(200 : ℚ) - 480| < 10) ∧
    (extractData doc2 []).toOption.map (fun p => p.1.map (·.debit)) =
      some [some (-(777 / 100))] := by
  refine ⟨by with_unfolding_all rfl, by norm_num, by norm_num, by with_unfolding_all rfl⟩

/-- C3 (amended): the row fold runs over every same-page fragment whose `y1`
equals the anchor's `y1` *including the anchor itself*; a date anchor (whose
text carries no amount and which does not sit in the valuta column) is passed
to the Categorizer and overwrites the `purpose` field. -/
theorem c3_anchor_included :
    (∀ (pageDf : List Fragment) (a : Fragment), a ∈ pageDf → a ∈ rowEntries pageDf a) ∧
    (∀ (cats : List Rule) (L : ColumnLayout) (t : RawTxn) (a : Fragment),
      a.x0 ≠ L.valutaDateX → amountSearch a.text.toList = none →
      processEntry cats L t a = { t with purpose := some (categorize cats a.text) }) := by
  constructor
  · intro pageDf a ha
    exact List.mem_filter.mpr ⟨ha, by simp⟩
  · intro cats L t a hx ha
    unfold processEntry
    rw [if_neg hx, ha]

/-- C3 witness: the `doc3` anchor is a member of its own row and, processed by
the row fold with the category `DateCat` (keyword `01.`), it sets the purpose
to `DateCat`. -/
theorem c3_anchor_included_witness :
    (⟨1, 50, 590, 80, 600, "01.02.2024"⟩ : Fragment) ∈
      rowEntries (pageFrags doc3 1) ⟨1, 50, 590, 80, 600, "01.02.2024"⟩ ∧
    processEntry cats3 ⟨50, 90, 400, 480⟩ (initTxn ⟨1, 50, 590, 80, 600, "01.02.2024"⟩)
        ⟨1, 50, 590, 80, 600, "01.02.2024"⟩ =
      { initTxn ⟨1, 50, 590, 80, 600, "01.02.2024"⟩ with purpose := some "DateCat" } := by
  constructor
  · refine c3_anchor_included.1 _ _ ?_
    rw [show pageFrags doc3 1 = doc3 from by with_unfolding_all rfl]
    exact List.Mem.head _
  · have h := c3_anchor_included.2 cats3 ⟨50, 90, 400, 480⟩
      (initTxn ⟨1, 50, 590, 80, 600, "01.02.2024"⟩) ⟨1, 50, 590, 80, 600, "01.02.2024"⟩
      (by show (50 : ℚ) ≠ 90; norm_num) (by with_unfolding_all rfl)
    exact h.trans (by with_unfolding_all rfl)

set_option maxRecDepth 200000 in
/-- C3 counterexample: in `doc3` the anchor's row consists of the anchor
alone, yet the extracted transaction's purpose is `DateCat` — produced by
categorizing the anchor's own date text, refuting the claim that the anchor
is excluded from the field-assignment loop. -/
theorem c3_anchor_excluded_refuted :
    rowEntries (pageFrags doc3 1) ⟨1, 50, 590, 80, 600, "01.02.2024"⟩ =
      [⟨1, 50, 590, 80, 600, "01.02.2024"⟩] ∧
    (extractData doc3 cats3).toOption.map (fun p => p.1.map (·.purpose)) =
      some [some "DateCat"] := by
  exact ⟨by with_unfolding_all rfl, by with_unfolding_all rfl⟩

/-- C4 (amended): a fragment set containing no date-pattern fragment (the
only way to have no row anchor) does not yield an empty transaction sequence:
`extract_data` fails, because `max`/`min` is taken over an empty
most-frequent-coordinate candidate set. -/
theorem c4_no_anchor_error :
    ∀ (frags : List Fragment) (cats : List Rule),
      frags.filter (fun f => containsDate f.text) = [] →
      (extractData frags cats).toOption = none := by
  intro frags cats h
  have hdate : dateX0List frags = [] := by
    unfold dateX0List
    rw [h]
    rfl
  have hloc : ∃ e, locateColumns frags = .error e := by
    unfold locateColumns
    rcases h1 : top2Vals (creditX1List frags) with _ | ⟨c, cs⟩
    · exact ⟨_, rfl⟩
    · rcases h2 : top2Vals (debitX1List frags) with _ | ⟨d, ds⟩
      · exact ⟨_, rfl⟩
      · rw [hdate]
        exact ⟨_, rfl⟩
  obtain ⟨e, he⟩ := hloc
  simp only [extractData, pipelineFrom, he, Except.map]
  rfl

/-- C4 witness: the anchor-free `doc4` has no date fragments and extraction
returns no result. -/
theorem c4_no_anchor_error_witness :
    (extractData doc4 []).toOption = none :=
  c4_no_anchor_error doc4 [] (by with_unfolding_all rfl)

set_option maxRecDepth 200000 in
/-- C4 counterexample: on the anchor-free `doc4`, `extract_data` raises (the
Python `max` over the empty credit-column candidate index), instead of
completing without error with an empty sequence. -/
theorem c4_empty_ok_refuted :
    extractData doc4 [] = .error ExtractErr.noCreditColumn := by
  with_unfolding_all rfl

/-- Inversion of a successful `extractData` run into the underlying pipeline
result and the warning assembly. -/
theorem extractData_ok_inv (frags : List Fragment) (cats : List Rule)
    (ts : List Txn) (ws : List Warning) :
    extractData frags cats = .ok (ts, ws) →
    ∃ p : List Txn × List Warning,
      pipelineFrom ((extractBalance frags).1.getD 0) (extractBalance frags).2 frags cats = .ok p ∧
      ts = p.1 ∧
      ws = (if (extractBalance frags).1.isNone then [Warning.missingStartBalance] else []) ++ p.2 := by
  intro h
  simp only [extractData] at h
  rcases hp : pipelineFrom ((extractBalance frags).1.getD 0) (extractBalance frags).2 frags cats
    with e | p
  · rw [hp] at h
    exact absurd h (by simp [Except.map])
  · rw [hp] at h
    simp only [Except.map, Except.ok.injEq, Prod.mk.injEq] at h
    exact ⟨p, rfl, h.1.symm, h.2.symm⟩

/-- Inversion of a successful `pipelineFrom` run into its stages. -/
theorem pipelineFrom_ok_inv (b0 : ℚ) (eb : Option ℚ) (frags : List Fragment)
    (cats : List Rule) (p : List Txn × List Warning) :
    pipelineFrom b0 eb frags cats = .ok p →
    ∃ (L : ColumnLayout) (r : RawTxn) (rs : List RawTxn) (dated : List Txn) (t : Txn),
      locateColumns frags = .ok L ∧
      reconstruct frags L cats = r :: rs ∧
      enrichAll (r :: rs) = .ok dated ∧
      p.1 = withBalances b0 0 (sortByDate dated) ∧
      p.1.getLast? = some t ∧
      p.2 = (match eb with
             | none => []
             | some e => if 5 < |t.balance - e| then [Warning.reconcileMismatch] else []) := by
  intro h
  unfold pipelineFrom at h
  split at h
  · exact absurd h (by simp)
  next L hL =>
    split at h
    next hR => exact absurd h (by simp)
    next r rs hR =>
      split at h
      · exact absurd h (by simp)
      next dated hE =>
        split at h
        · exact absurd h (by simp)
        next t hG =>
          rcases h with ⟨rfl⟩
          exact ⟨L, r, rs, dated, t, hL, hR, hE, rfl, hG, rfl⟩

/-- `withBalances` only rewrites the `balance` field: the amount column is
unchanged. -/
theorem withBalances_map_amount (b0 : ℚ) :
    ∀ (acc : ℚ) (l : List Txn),
      (withBalances b0 acc l).map (·.amount) = l.map (·.amount)
  | _, [] => rfl
  | acc, t :: ts => by
    simp only [withBalances, List.map_cons]
    exact congrArg (List.cons t.amount) (withBalances_map_amount b0 (acc + t.amount) ts)

/-- The `i`-th balance written by `withBalances` is the start balance plus the
accumulator plus the sum of the first `i + 1` amounts, rounded. -/
theorem withBalances_balance (b0 : ℚ) :
    ∀ (l : List Txn) (acc : ℚ) (i : Nat) (hi : i < (withBalances b0 acc l).length),
      ((withBalances b0 acc l).get ⟨i, hi⟩).balance =
        round2 (b0 + (acc + ((l.map (·.amount)).take (i + 1)).sum))
  | [], acc, i, hi => by simp [withBalances] at hi
  | t :: ts, acc, 0, hi => by
    simp only [withBalances, List.get, List.map_cons, List.take_succ_cons, List.take_zero,
      List.sum_cons, List.sum_nil]
    exact congrArg round2 (by ring)
  | t :: ts, acc, i + 1, hi => by
    have hi' : i < (withBalances b0 (acc + t.amount) ts).length := by
      simpa [withBalances] using hi
    have ih := withBalances_balance b0 ts (acc + t.amount) i hi'
    simp only [withBalances, List.get, List.map_cons, List.take_succ_cons, List.sum_cons]
    rw [ih]
    exact congrArg round2 (by ring)

/-- Every transaction emitted by `withBalances` keeps the credit, debit and
amount of a source transaction. -/
theorem withBalances_mem (b0 : ℚ) :
    ∀ (acc : ℚ) (l : List Txn) (t : Txn),
      t ∈ withBalances b0 acc l →
      ∃ u ∈ l, t.credit = u.credit ∧ t.debit = u.debit ∧ t.amount = u.amount
  | _, [], t => by simp [withBalances]
  | acc, u :: us, t => by
    intro ht
    rcases List.mem_cons.mp ht with h | h
    · exact ⟨u, List.mem_cons_self u us, by rw [h], by rw [h], by rw [h]⟩
    · obtain ⟨v, hv, h1, h2, h3⟩ := withBalances_mem b0 (acc + u.amount) us t h
      exact ⟨v, List.mem_cons_of_mem _ hv, h1, h2, h3⟩

/-- Members of an insertion are the inserted element or members of the list. -/
theorem mem_insertTxn (t x : Txn) :
    ∀ l : List Txn, x ∈ insertTxn t l → x = t ∨ x ∈ l
  | [] => by simp [insertTxn]
  | u :: us => by
    simp only [insertTxn]
    split
    · intro hx
      rcases List.mem_cons.mp hx with h | h
      · exact Or.inr (h ▸ List.mem_cons_self _ _)
      · rcases mem_insertTxn t x us h with h' | h'
        · exact Or.inl h'
        · exact Or.inr (List.mem_cons_of_mem _ h')
    · intro hx
      rcases List.mem_cons.mp hx with h | h
      · exact Or.inl h
      · exact Or.inr h

/-- The sorted list has the same members. -/
theorem mem_sortByDate (x : Txn) :
    ∀ l : List Txn, x ∈ sortByDate l → x ∈ l
  | [] => by simp [sortByDate]
  | t :: ts => by
    intro hx
    rcases mem_insertTxn t x (sortByDate ts) hx with h | h
    · exact h ▸ List.mem_cons_self _ _
    · exact List.mem_cons_of_mem _ (mem_sortByDate x ts h)

/-- Every transaction in a successful `enrichAll` output is the enrichment of
some raw row. -/
theorem enrichAll_mem :
    ∀ (rs : List RawTxn) (ts : List Txn), enrichAll rs = .ok ts →
      ∀ t ∈ ts, ∃ r : RawTxn, enrich r = .ok t
  | [], ts, h => by
    simp only [enrichAll, Except.ok.injEq] at h
    subst h
    intro t ht
    cases ht
  | r :: rs, ts, h => by
    unfold enrichAll at h
    rcases he : enrich r with e | t0 <;> rw [he] at h
    · exact absurd h (by simp)
    rcases hrest : enrichAll rs with e | ts0 <;> rw [hrest] at h
    · exact absurd h (by simp)
    simp only [Except.ok.injEq] at h
    subst h
    intro t ht
    rcases List.mem_cons.mp ht with h' | h'
    · exact ⟨r, h' ▸ he⟩
    · exact enrichAll_mem rs ts0 hrest t h'

/-- `enrich` sets `amount` to the rounded sum of its own credit and debit
fields (absent read as zero). -/
theorem enrich_amount (r : RawTxn) (t : Txn) :
    enrich r = .ok t → t.amount = round2 (t.credit.getD 0 + t.debit.getD 0) := by
  intro h
  unfold enrich at h
  rcases hpd : parseDate r.booking with _ | d <;> rw [hpd] at h
  · cases h
  · cases h
    rfl

set_option maxRecDepth 400000 in
/-- `sampleDoc` extracts successfully, with no warnings. -/
theorem sampleRun : extractData sampleDoc sampleCats = .ok (sampleTxns, []) := by
  with_unfolding_all rfl

set_option maxRecDepth 400000 in
/-- `sampleDoc` declares the start balance 1000. -/
theorem sampleStart : (extractBalance sampleDoc).1 = some 1000 := by
  with_unfolding_all rfl

set_option maxRecDepth 400000 in
/-- `sampleDoc` declares the end balance 1010. -/
theorem sampleEnd : (extractBalance sampleDoc).2 = some 1010 := by
  with_unfolding_all rfl

set_option maxRecDepth 400000 in
/-- `sampleDoc` yields two transactions. -/
theorem sampleTxns_length : sampleTxns.length = 2 := by
  with_unfolding_all rfl

/-- The last transaction extracted from `sampleDoc`. -/
def sampleLastTxn : Txn :=
  (sampleTxns.getLast?).getD ⟨none, none, none, "", ⟨0, 0, 0⟩, 0, 0, 0, 0, 0⟩

set_option maxRecDepth 400000 in
/-- `sampleLastTxn` is indeed the last extracted transaction. -/
theorem sampleLast_eq : sampleTxns.getLast? = some sampleLastTxn := by
  with_unfolding_all rfl

set_option maxRecDepth 400000 in
/-- The computed final balance of `sampleDoc` is 1005. -/
theorem sampleLast_balance : sampleLastTxn.balance = 1005 := by
  with_unfolding_all rfl

/-- C10: when no start-balance anchor is found, extraction proceeds with a
start balance of exactly zero, prepends the missing-start-balance warning,
and otherwise behaves identically (in particular a successful run still
returns its transaction sequence, and its warning list contains the
warning). -/
theorem c10_zero_start_on_missing :
    ∀ (frags : List Fragment) (cats : List Rule),
      (extractBalance frags).1 = none →
      extractData frags cats =
        (pipelineFrom 0 (extractBalance frags).2 frags cats).map
          (fun p => (p.1, Warning.missingStartBalance :: p.2)) ∧
      (∀ (ts : List Txn) (ws : List Warning),
        extractData frags cats = .ok (ts, ws) → Warning.missingStartBalance ∈ ws) := by
  intro frags cats h
  constructor
  · simp only [extractData, h]
    rfl
  · intro ts ws hok
    obtain ⟨p, hp, hts, hws⟩ := extractData_ok_inv frags cats ts ws hok
    rw [h] at hws
    simp only [Option.isNone_none, if_true] at hws
    rw [hws]
    exact List.mem_cons_self _ _

set_option maxRecDepth 400000 in
/-- C10 witness: `doc2` has no `EUR` anchor at all; extraction runs the
pipeline with start balance 0 and prepends the warning. -/
theorem c10_zero_start_on_missing_witness :
    extractData doc2 [] =
      (pipelineFrom 0 (extractBalance doc2).2 doc2 []).map
        (fun p => (p.1, Warning.missingStartBalance :: p.2)) :=
  (c10_zero_start_on_missing doc2 [] (by with_unfolding_all rfl)).1

/-- C7: with an end balance located, the reconciliation warning is emitted
exactly when the absolute difference between the computed final balance and
the declared end balance strictly exceeds 5.00 — and the transaction
sequence is returned in either case (the hypothesis is a successful run). -/
theorem c7_reconcile_tolerance :
    ∀ (frags : List Fragment) (cats : List Rule) (ts : List Txn) (ws : List Warning)
      (eb : ℚ) (t : Txn),
      extractData frags cats = .ok (ts, ws) →
      (extractBalance frags).2 = some eb →
      ts.getLast? = some t →
      (Warning.reconcileMismatch ∈ ws ↔ 5 < |t.balance - eb|) := by
  intro frags cats ts ws eb t h1 h2 h3
  obtain ⟨p, hp, hts, hws⟩ := extractData_ok_inv frags cats ts ws h1
  obtain ⟨L, r, rs, dated, t0, hL, hR, hE, hfin, hlast, hwend⟩ :=
    pipelineFrom_ok_inv _ _ frags cats p hp
  have ht0 : t0 = t := by
    rw [hts] at h3
    rw [h3] at hlast
    exact (Option.some.injEq _ _).mp hlast.symm
  subst ht0
  simp only [h2] at hwend
  have hnot : Warning.reconcileMismatch ∉
      (if (extractBalance frags).1.isNone then [Warning.missingStartBalance] else []) := by
    split <;> simp
  rw [hws, hwend]
  by_cases hc : 5 < |t0.balance - eb|
  · simp [List.mem_append, hnot, hc]
  · simp [List.mem_append, hnot, hc]

/-- C7 witness: on `sampleDoc` the computed final balance is 1005 against a
declared 1010 — a difference of exactly 5.00 — and indeed no warning was
emitted (the warning list of `sampleRun` is empty). -/
theorem c7_reconcile_tolerance_witness :
    (Warning.reconcileMismatch ∈ ([] : List Warning)) ↔ 5 < |sampleLastTxn.balance - 1010| :=
  c7_reconcile_tolerance sampleDoc sampleCats sampleTxns [] 1010 sampleLastTxn
    sampleRun sampleEnd sampleLast_eq

/-- C1: on a successful run with located start balance `b0`, the `i`-th
returned transaction's balance is `round2` of `b0` plus the sum of the first
`i + 1` amounts of the returned (date-sorted) sequence, and every amount is
`round2 (credit + debit)` with an absent value read as zero.  At the last
index this is the final-balance property. -/
theorem c1_running_balance :
    ∀ (frags : List Fragment) (cats : List Rule) (ts : List Txn) (ws : List Warning) (b0 : ℚ),
      extractData frags cats = .ok (ts, ws) →
      (extractBalance frags).1 = some b0 →
      (∀ (i : Nat) (hi : i < ts.length),
        (ts.get ⟨i, hi⟩).balance = round2 (b0 + ((ts.map (·.amount)).take (i + 1)).sum)) ∧
      (∀ t ∈ ts, t.amount = round2 (t.credit.getD 0 + t.debit.getD 0)) := by
  intro frags cats ts ws b0 h1 h2
  obtain ⟨p, hp, hts, hws⟩ := extractData_ok_inv frags cats ts ws h1
  rw [show (extractBalance frags).1.getD 0 = b0 by rw [h2]; rfl] at hp
  obtain ⟨L, r, rs, dated, t0, hL, hR, hE, hfin, hlast, hwend⟩ :=
    pipelineFrom_ok_inv b0 (extractBalance frags).2 frags cats p hp
  have hts' : ts = withBalances b0 0 (sortByDate dated) := hts.trans hfin
  subst hts'
  constructor
  · intro i hi
    rw [withBalances_balance b0 (sortByDate dated) 0 i hi, withBalances_map_amount]
    exact congrArg round2 (by ring)
  · intro t ht
    obtain ⟨u, hu, hc, hd, ha⟩ := withBalances_mem b0 0 (sortByDate dated) t ht
    obtain ⟨rr, hrr⟩ := enrichAll_mem _ _ hE u (mem_sortByDate u _ hu)
    rw [ha, hc, hd]
    exact enrich_amount rr u hrr

set_option maxRecDepth 400000 in
/-- C1 witness: on `sampleDoc` (start balance 1000, amounts +10 and −5) the
second transaction's balance is `round2 (1000 + (10 - 5))`, as given by the
theorem at index 1. -/
theorem c1_running_balance_witness :
    (sampleTxns.get ⟨1, by rw [sampleTxns_length]; omega⟩).balance =
      round2 (1000 + ((sampleTxns.map (·.amount)).take 2).sum) :=
  (c1_running_balance sampleDoc sampleCats sampleTxns [] 1000 sampleRun sampleStart).1 1
    (by rw [sampleTxns_length]; omega)

/-- A prefix test succeeds exactly when the pattern is a literal prefix. -/
theorem listStarts_iff :
    ∀ (p l : List Char), listStarts l p = true ↔ ∃ t, l = p ++ t
  | [], l => by simp [listStarts]
  | c :: ps, [] => by simp [listStarts]
  | c :: ps, h :: hs => by
    simp only [listStarts, Bool.and_eq_true, decide_eq_true_eq, listStarts_iff ps hs]
    constructor
    · rintro ⟨rfl, t, rfl⟩
      exact ⟨t, rfl⟩
    · rintro ⟨t, ht⟩
      rw [List.cons_append] at ht
      obtain ⟨h1, h2⟩ := List.cons.injEq .. ▸ ht
      exact ⟨h1, t, h2⟩

/-- Dropping a satisfying block from the front of an append. -/
theorem dropWhile_append_all {p : Char → Bool} :
    ∀ (l₁ l₂ : List Char), (∀ c ∈ l₁, p c = true) →
      List.dropWhile p (l₁ ++ l₂) = List.dropWhile p l₂
  | [], l₂, _ => rfl
  | c :: cs, l₂, h => by
    have hc := h c (List.mem_cons_self c cs)
    simp only [List.cons_append, List.dropWhile_cons, hc, if_true]
    exact dropWhile_append_all cs l₂ (fun x hx => h x (List.mem_cons_of_mem _ hx))

/-- Characterisation of one matching position of `DATE_PATTERN`. -/
theorem dateAt_iff (cs : List Char) :
    dateAt cs = true ↔ ∃ d1 d2 d3 d4 rest,
      cs = d1 :: d2 :: '.' :: d3 :: d4 :: '.' :: rest ∧
      (isDigitCh d1 = true ∧ isDigitCh d2 = true ∧ isDigitCh d3 = true ∧ isDigitCh d4 = true) ∧
      ∃ ws post, rest = ws ++ '2' :: '0' :: '2' :: '4' :: post ∧
        ∀ c ∈ ws, isWsChar c = true := by
  constructor
  · intro h
    rcases cs with _ | ⟨c1, _ | ⟨c2, _ | ⟨c3, _ | ⟨c4, _ | ⟨c5, _ | ⟨c6, rest⟩⟩⟩⟩⟩⟩ <;>
      try simp [dateAt] at h
    obtain ⟨⟨⟨⟨⟨⟨h1, h2⟩, h3⟩, h4⟩, h5⟩, h6⟩, h7⟩ :
        (((((isDigitCh c1 = true ∧ isDigitCh c2 = true) ∧ c3 = '.') ∧ isDigitCh c4 = true) ∧
          isDigitCh c5 = true) ∧ c6 = '.') ∧
          listStarts (rest.dropWhile isWsChar) ['2', '0', '2', '4'] = true := by
      simpa [dateAt, Bool.and_eq_true, decide_eq_true_eq] using h
    subst h3; subst h6
    obtain ⟨t, ht⟩ := (listStarts_iff _ _).mp h7
    refine ⟨c1, c2, c4, c5, rest, rfl, ⟨h1, h2, h4, h5⟩,
      rest.takeWhile isWsChar, t, ?_, fun c hc => List.mem_takeWhile_imp hc⟩
    conv_lhs => rw [← List.takeWhile_append_dropWhile (p := isWsChar) (l := rest)]
    rw [ht]
    rfl
  · rintro ⟨d1, d2, d3, d4, rest, rfl, ⟨h1, h2, h3, h4⟩, ws, post, rfl, hws⟩
    have h7 : listStarts ((ws ++ '2' :: '0' :: '2' :: '4' :: post).dropWhile isWsChar)
        ['2', '0', '2', '4'] = true := by
      rw [dropWhile_append_all ws _ hws]
      rw [show List.dropWhile isWsChar ('2' :: '0' :: '2' :: '4' :: post) =
          '2' :: '0' :: '2' :: '4' :: post from by simp [List.dropWhile_cons, isWsChar]]
      exact (listStarts_iff _ _).mpr ⟨post, rfl⟩
    simp [dateAt, h1, h2, h3, h4, h7]

/-- `re.search` semantics of the date scan: some split of the text matches. -/
theorem containsDateL_iff :
    ∀ cs : List Char, containsDateL cs = true ↔
      ∃ pre rest, cs = pre ++ rest ∧ dateAt rest = true
  | [] => by
    simp only [containsDateL]
    constructor
    · intro h; cases h
    · rintro ⟨pre, rest, heq, hd⟩
      obtain ⟨rfl, rfl⟩ := List.append_eq_nil.mp heq.symm
      simp [dateAt] at hd
  | c :: cs' => by
    simp only [containsDateL, Bool.or_eq_true]
    constructor
    · rintro (h | h)
      · exact ⟨[], c :: cs', rfl, h⟩
      · obtain ⟨pre, rest, heq, hd⟩ := (containsDateL_iff cs').mp h
        exact ⟨c :: pre, rest, by rw [heq, List.cons_append], hd⟩
    · rintro ⟨pre, rest, heq, hd⟩
      rcases pre with _ | ⟨p, pre'⟩
      · rw [List.nil_append] at heq
        exact Or.inl (heq ▸ hd)
      · rw [List.cons_append] at heq
        obtain ⟨rfl, h2⟩ := List.cons_eq_cons.mp heq
        exact Or.inr ((containsDateL_iff cs').mpr ⟨pre', rest, h2, hd⟩)

/-- C8: a fragment text passes the date test exactly when it contains two
digits, a dot, two digits, a dot, optional whitespace and the literal year
`2024`; every row anchor passes that test; transactions are in one-to-one
correspondence with row anchors (one per anchor, per page); and a well-formed
date of another year such as `01.01.2023` does not pass the test (and hence
never yields an anchor or a transaction). -/
theorem c8_date_requires_2024 :
    (∀ s : String, containsDate s = true ↔
      ∃ pre d1 d2 d3 d4 ws post,
        s.toList =
          pre ++ d1 :: d2 :: '.' :: d3 :: d4 :: '.' :: (ws ++ '2' :: '0' :: '2' :: '4' :: post) ∧
        (isDigitCh d1 = true ∧ isDigitCh d2 = true ∧ isDigitCh d3 = true ∧ isDigitCh d4 = true) ∧
        (∀ c ∈ ws, isWsChar c = true)) ∧
    (∀ (pageDf : List Fragment) (bx : ℚ) (f : Fragment),
      f ∈ rowAnchors pageDf bx → containsDate f.text = true) ∧
    (∀ (frags : List Fragment) (L : ColumnLayout) (cats : List Rule),
      (reconstruct frags L cats).length =
        ((pagesOf frags).map (fun p => (rowAnchors (pageFrags frags p) L.bookingDateX).length)).sum) ∧
    containsDate "01.01.2023" = false := by
  refine ⟨?_, ?_, ?_, by decide⟩
  · intro s
    unfold containsDate
    rw [containsDateL_iff]
    constructor
    · rintro ⟨pre, rest, heq, hd⟩
      obtain ⟨d1, d2, d3, d4, rest', hrest, hdig, ws, post, hpost, hws⟩ := (dateAt_iff rest).mp hd
      subst hpost
      exact ⟨pre, d1, d2, d3, d4, ws, post, by rw [heq, hrest], hdig, hws⟩
    · rintro ⟨pre, d1, d2, d3, d4, ws, post, heq, hdig, hws⟩
      exact ⟨pre, _, heq, (dateAt_iff _).mpr ⟨d1, d2, d3, d4, _, rfl, hdig, ws, post, rfl, hws⟩⟩
  · intro pageDf bx f h
    have h2 := (List.mem_filter.mp h).2
    exact (Bool.and_eq_true _ _ |>.mp h2).2
  · intro frags L cats
    simp only [reconstruct, List.length_flatMap]
    have hfun : (List.length ∘ fun p =>
        List.map (buildTxn cats L (pageFrags frags p)) (rowAnchors (pageFrags frags p) L.bookingDateX)) =
        fun p => (rowAnchors (pageFrags frags p) L.bookingDateX).length := by
      funext p
      simp [Function.comp, List.length_map]
    rw [hfun]

/-- C8 witness: `13.05. 2024` (whitespace before the year) passes the date
test, via the decomposition required by the characterisation. -/
theorem c8_date_requires_2024_witness :
    containsDate "13.05. 2024" = true :=
  (c8_date_requires_2024.1 "13.05. 2024").mpr
    ⟨[], '1', '3', '0', '5', [' '], [], by decide, by decide, by decide⟩

/-- The specification-side reading of "the two most frequent values": `a` and
`b` occur, are distinct, `a` is at least as frequent as `b`, and every other
occurring value is strictly less frequent than `b`. -/
def UniqueTop2 (xs : List ℚ) (a b : ℚ) : Prop :=
  a ∈ xs ∧ b ∈ xs ∧ a ≠ b ∧ countOcc b xs ≤ countOcc a xs ∧
  ∀ v ∈ xs, v ≠ a → v ≠ b → countOcc v xs < countOcc b xs

/-- The `qeq`-based any-scan is list membership. -/
theorem any_qeq_iff (x : ℚ) (l : List ℚ) : (l.any (fun y => qeq y x)) = true ↔ x ∈ l := by
  rw [List.any_eq_true]
  constructor
  · rintro ⟨y, hy, hq⟩
    exact ((qeq_iff y x).mp hq) ▸ hy
  · intro hx
    exact ⟨x, hx, (qeq_iff x x).mpr rfl⟩

/-- Membership in the first-appearance deduplication fold. -/
theorem foldl_dedup_mem (v : ℚ) :
    ∀ (xs acc : List ℚ),
      (v ∈ xs.foldl (fun acc x => if acc.any (fun y => qeq y x) then acc else acc ++ [x]) acc) ↔
        v ∈ acc ∨ v ∈ xs
  | [], acc => by simp
  | x :: xs, acc => by
    rw [List.foldl_cons, foldl_dedup_mem v xs]
    constructor
    · rintro (h | h)
      · split at h
        · exact Or.imp_right (List.mem_cons_of_mem x) (Or.inl h)
        · rcases List.mem_append.mp h with h' | h'
          · exact Or.inl h'
          · exact Or.inr (List.mem_cons.mpr (Or.inl (List.mem_singleton.mp h')))
      · exact Or.inr (List.mem_cons_of_mem x h)
    · rintro (h | h)
      · left
        split
        · exact h
        · exact List.mem_append_left _ h
      · rcases List.mem_cons.mp h with h' | h'
        · subst h'
          left
          split
          next hin => exact (any_qeq_iff v acc).mp hin
          · exact List.mem_append_right _ (List.mem_singleton.mpr rfl)
        · exact Or.inr h'

/-- `dedupFA` has the same members as its input. -/
theorem mem_dedupFA (v : ℚ) (xs : List ℚ) : v ∈ dedupFA xs ↔ v ∈ xs := by
  unfold dedupFA
  rw [foldl_dedup_mem]
  simp

/-- The pick fold returns one of its candidates. -/
theorem pickFold_mem (xs : List ℚ) :
    ∀ (cs : List ℚ) (c : ℚ), cs.foldl (pickStep xs) c ∈ c :: cs
  | [], c => List.Mem.head _
  | v :: vs, c => by
    have ih := pickFold_mem xs vs (pickStep xs c v)
    rcases List.mem_cons.mp ih with h | h
    · rw [List.foldl_cons, h]
      unfold pickStep
      split
      · exact List.mem_cons_of_mem _ (List.Mem.head _)
      · exact List.Mem.head _
    · exact List.mem_cons_of_mem _ (List.mem_cons_of_mem _ (by rw [List.foldl_cons]; exact h))

/-- The pick fold returns a candidate of maximal occurrence count. -/
theorem pickFold_le (xs : List ℚ) :
    ∀ (cs : List ℚ) (c v : ℚ), v ∈ c :: cs →
      countOcc v xs ≤ countOcc (cs.foldl (pickStep xs) c) xs
  | [], c, v, hv => by
    rcases List.mem_cons.mp hv with h | h
    · subst h; exact le_refl _
    · cases h
  | w :: ws, c, v, hv => by
    rw [List.foldl_cons]
    have hstep : countOcc c xs ≤ countOcc (pickStep xs c w) xs ∧
        countOcc w xs ≤ countOcc (pickStep xs c w) xs := by
      unfold pickStep
      split
      next hlt => exact ⟨le_of_lt hlt, le_refl _⟩
      next hnlt => exact ⟨le_refl _, le_of_not_lt hnlt⟩
    have hhead := pickFold_le xs ws (pickStep xs c w) (pickStep xs c w) (List.Mem.head _)
    rcases List.mem_cons.mp hv with h | h
    · subst h
      exact le_trans hstep.1 hhead
    · rcases List.mem_cons.mp h with h' | h'
      · subst h'
        exact le_trans hstep.2 hhead
      · exact pickFold_le xs ws (pickStep xs c w) v (List.mem_cons_of_mem _ h')

/-- When a unique most-frequent pair exists, `value_counts().nlargest(2)`
returns exactly that pair (in one of the two orders). -/
theorem top2_of_uniqueTop2 (xs : List ℚ) (a b : ℚ) (h : UniqueTop2 xs a b) :
    top2Vals xs = [a, b] ∨ top2Vals xs = [b, a] := by
  obtain ⟨ha, hb, hab, hba, hstrict⟩ := h
  rcases hd : dedupFA xs with _ | ⟨c, cs⟩
  · exact absurd ((mem_dedupFA a xs).mpr ha) (by rw [hd]; intro h; cases h)
  have hmemd : ∀ v : ℚ, v ∈ xs → v ∈ c :: cs := fun v hv => hd ▸ (mem_dedupFA v xs).mpr hv
  have hmemx : ∀ v : ℚ, v ∈ c :: cs → v ∈ xs := fun v hv => (mem_dedupFA v xs).mp (hd ▸ hv)
  set b1 := cs.foldl (pickStep xs) c with hb1
  have hb1mem : b1 ∈ xs := hmemx b1 (pickFold_mem xs cs c)
  have hb1max : ∀ v : ℚ, v ∈ xs → countOcc v xs ≤ countOcc b1 xs :=
    fun v hv => pickFold_le xs cs c v (hmemd v hv)
  have hb1ab : b1 = a ∨ b1 = b := by
    by_contra hcon
    push_neg at hcon
    have h1 := hstrict b1 hb1mem hcon.1 hcon.2
    have h2 := hb1max a ha
    omega
  set cands2 := (c :: cs).filter (fun v => !qeq v b1) with hc2def
  have hother : ∀ other : ℚ, other ∈ xs → other ≠ b1 → other ∈ cands2 := by
    intro other ho hne
    refine List.mem_filter.mpr ⟨hmemd other ho, ?_⟩
    rw [Bool.not_eq_true']
    rw [show (qeq other b1 = false) = ¬ (qeq other b1 = true) from by simp]
    rw [qeq_iff]
    exact hne
  rcases hc2 : cands2 with _ | ⟨d, ds⟩
  · rcases hb1ab with rfl | rfl
    · exact absurd (hc2 ▸ hother b hb (Ne.symm hab)) (by intro h; cases h)
    · exact absurd (hc2 ▸ hother a ha hab) (by intro h; cases h)
  set b2 := ds.foldl (pickStep xs) d with hb2def
  have hb2mem' : b2 ∈ cands2 := hc2 ▸ pickFold_mem xs ds d
  have hb2filter := List.mem_filter.mp (hc2def ▸ hb2mem')
  have hb2mem : b2 ∈ xs := hmemx b2 hb2filter.1
  have hb2ne : b2 ≠ b1 := by
    have h2 := hb2filter.2
    rw [Bool.not_eq_true'] at h2
    intro heq
    rw [heq, (qeq_iff b1 b1).mpr rfl] at h2
    cases h2
  have hb2max : ∀ v : ℚ, v ∈ cands2 → countOcc v xs ≤ countOcc b2 xs := by
    intro v hv
    exact pickFold_le xs ds d v (hc2 ▸ hv)
  have htop : top2Vals xs = [b1, b2] := by
    unfold top2Vals
    rw [hd]
    rw [show pickBest xs (c :: cs) = some b1 from rfl]
    show (match pickBest xs ((c :: cs).filter (fun v => !qeq v b1)) with
          | none => [b1]
          | some v2 => [b1, v2]) = [b1, b2]
    rw [show (c :: cs).filter (fun v => !qeq v b1) = d :: ds from hc2]
    rfl
  rcases hb1ab with rfl | rfl
  · have : b2 = b := by
      by_contra hne
      have h1 := hstrict b2 hb2mem hb2ne hne
      have h2 := hb2max b (hother b hb (Ne.symm hab))
      omega
    rw [htop, this]
    exact Or.inl rfl
  · have : b2 = a := by
      by_contra hne
      have h1 := hstrict b2 hb2mem hne hb2ne
      have h2 := hb2max a (hother a ha hab)
      have h3 : countOcc b1 xs ≤ countOcc a xs := hba
      omega
    rw [htop, this]
    exact Or.inr rfl

/-- C9 (amended): with unique top-two frequency values in each histogram, the
Column Locator sets `bookingDateX` to the smaller and `valutaDateX` to the
larger of the two most frequent date `x0` values, and sets
`creditRightEdgeX` (resp. `debitRightEdgeX`) to the larger of the two most
frequent credit (resp. debit) `x1` values **rounded to 2 decimal places**
(the `round(..., 2)` of lines 214-215, which the original claim omits). -/
theorem c9_column_rounding :
    ∀ (frags : List Fragment) (v1 v2 w1 w2 u1 u2 : ℚ),
      UniqueTop2 (creditX1List frags) w1 w2 →
      UniqueTop2 (debitX1List frags) u1 u2 →
      UniqueTop2 (dateX0List frags) v1 v2 →
      locateColumns frags =
        .ok ⟨min v1 v2, max v1 v2, round2 (max w1 w2), round2 (max u1 u2)⟩ := by
  intro frags v1 v2 w1 w2 u1 u2 hw hu hv
  unfold locateColumns
  rcases top2_of_uniqueTop2 _ _ _ hw with h1 | h1 <;>
    rcases top2_of_uniqueTop2 _ _ _ hu with h2 | h2 <;>
      rcases top2_of_uniqueTop2 _ _ _ hv with h3 | h3 <;>
        rw [h1, h2, h3] <;>
          simp [listMin, listMax, min_comm, max_comm]

set_option maxRecDepth 100000 in
/-- The credit right edges of `doc9` (the most frequent is `400.125 = 3201/8`). -/
theorem doc9_credit : creditX1List doc9 = [3201/8, 3201/8, 300] := by
  with_unfolding_all rfl

set_option maxRecDepth 100000 in
/-- The debit right edges of `doc9`. -/
theorem doc9_debit : debitX1List doc9 = [480, 480, 200] := by
  with_unfolding_all rfl

set_option maxRecDepth 100000 in
/-- The date left edges of `doc9`. -/
theorem doc9_dates : dateX0List doc9 = [50, 90, 50, 90] := by
  with_unfolding_all rfl

/-- A two-value histogram `x, x, y` has the unique top-two pair `(x, y)`. -/
theorem uniqueTop2_double (x y : ℚ) (hxy : x ≠ y)
    (hc : countOcc y [x, x, y] ≤ countOcc x [x, x, y]) :
    UniqueTop2 [x, x, y] x y := by
  refine ⟨List.Mem.head _, List.mem_cons_of_mem _ (List.mem_cons_of_mem _ (List.Mem.head _)),
    hxy, hc, ?_⟩
  intro v hv hv1 hv2
  simp only [List.mem_cons, List.not_mem_nil, or_false] at hv
  rcases hv with h | h | h <;> first
    | exact absurd h hv1
    | exact absurd h hv2

/-- A two-value histogram `x, y, x, y` has the unique top-two pair `(x, y)`. -/
theorem uniqueTop2_pairs (x y : ℚ) (hxy : x ≠ y)
    (hc : countOcc y [x, y, x, y] ≤ countOcc x [x, y, x, y]) :
    UniqueTop2 [x, y, x, y] x y := by
  refine ⟨List.Mem.head _, List.mem_cons_of_mem _ (List.Mem.head _), hxy, hc, ?_⟩
  intro v hv hv1 hv2
  simp only [List.mem_cons, List.not_mem_nil, or_false] at hv
  rcases hv with h | h | h | h <;> first
    | exact absurd h hv1
    | exact absurd h hv2

set_option maxRecDepth 100000 in
/-- C9 witness: on `doc9` the located layout is exactly
`(min 50 90, max 50 90, round2 (max 400.125 300), round2 (max 480 200))`. -/
theorem c9_column_rounding_witness :
    locateColumns doc9 =
      .ok ⟨min 50 90, max 50 90, round2 (max (3201/8) 300), round2 (max 480 200)⟩ :=
  c9_column_rounding doc9 50 90 (3201/8) 300 480 200
    (doc9_credit ▸ uniqueTop2_double (3201/8) 300 (by norm_num)
      (by rw [show countOcc 300 [(3201/8 : ℚ), 3201/8, 300] = 1 from by with_unfolding_all rfl,
              show countOcc (3201/8) [(3201/8 : ℚ), 3201/8, 300] = 2 from by with_unfolding_all rfl]
          omega))
    (doc9_debit ▸ uniqueTop2_double 480 200 (by norm_num)
      (by rw [show countOcc 200 [(480 : ℚ), 480, 200] = 1 from by with_unfolding_all rfl,
              show countOcc 480 [(480 : ℚ), 480, 200] = 2 from by with_unfolding_all rfl]
          omega))
    (doc9_dates ▸ uniqueTop2_pairs 50 90 (by norm_num)
      (by rw [show countOcc 90 [(50 : ℚ), 90, 50, 90] = 2 from by with_unfolding_all rfl,
              show countOcc 50 [(50 : ℚ), 90, 50, 90] = 2 from by with_unfolding_all rfl]))

set_option maxRecDepth 100000 in
/-- C9 counterexample: on `doc9` the two most frequent credit right edges are
`400.125 = 3201/8` (twice) and `300` (once); the claim says
`creditRightEdgeX` equals the larger, `400.125`, but the code stores
`round(400.125, 2) = 400.12 = 10003/25`, a different value. -/
theorem c9_exact_edge_refuted :
    top2Vals (creditX1List doc9) = [3201/8, 300] ∧
    (locateColumns doc9).toOption.map (·.creditRightEdgeX) = some (10003 / 25) ∧
    (10003 / 25 : ℚ) ≠ 3201/8 :=
  ⟨by with_unfolding_all rfl, by with_unfolding_all rfl, by norm_num⟩

end FinTrack
